import Mathlib

/-!
Verification development for the Bitcoin regtest transaction simulator
(src/rust/src/main.rs). The program is a single linear procedure driving a
Bitcoin Core node over RPC; we shallowly embed the pieces of local logic:

* the report serialization (the final write! of ten newline-terminated fields),
* the fee computation (total input minus the sum of all output values),
* output classification (a fold over the outputs with last-match-wins),
* sender resolution (first input only, with an unchecked index into the
  previous transaction's outputs),
* the block-mining maturity loop ((1..).find_map over fallible RPC calls).

Rust f64 amounts are idealized as exact rationals (ℚ); external library and
RPC behavior (address decoding from a script, transaction fetch, block
generation, balance queries) is passed in as explicit function parameters,
with Option encoding fallibility exactly where the source treats it as
fallible.
-/

/-- A locking script (the Rust ScriptBuf in an output); opaque bytes, modelled
as a string. -/
structure Script where
  code : String
deriving DecidableEq

/-- A transaction output (Rust TxOut): its value (BTC, f64 idealized as ℚ) and
its locking script. -/
structure TxOut where
  value : ℚ
  script_pubkey : Script
deriving DecidableEq

/-- A reference to a previous transaction's output (Rust OutPoint):
transaction id and output index. -/
structure OutPoint where
  txid : String
  vout : Nat
deriving DecidableEq

/-- A transaction input (Rust TxIn): the previous output it spends. -/
structure TxIn where
  previous_output : OutPoint
deriving DecidableEq

/-- A raw transaction as fetched over RPC: its inputs and outputs. -/
structure Transaction where
  input : List TxIn
  output : List TxOut
deriving DecidableEq

/-- The mutable analysis variables of Step 15 of main, initialized to empty
strings and 0.0 before the output scan. -/
structure OutputClassification where
  recipient_address : String
  recipient_amount : ℚ
  change_return_address : String
  change_return_amount : ℚ
deriving DecidableEq

/-- The initial classification state: String::with_capacity(42) is the empty
string, and both amounts start at 0.0. -/
def initClassification : OutputClassification :=
  { recipient_address := "", recipient_amount := 0,
    change_return_address := "", change_return_amount := 0 }

/-- One iteration of the output-scanning for loop of main (lines 321-342):
try to decode the output's script (continue on failure), then overwrite the
recipient fields when the decoded address equals the trader address and the
change fields otherwise. `fromScript` embeds Address::from_script on regtest. -/
def classifyStep (fromScript : Script → Option String) (traderAddr : String)
    (acc : OutputClassification) (out : TxOut) : OutputClassification :=
  match fromScript out.script_pubkey with
  | none => acc
  | some a =>
    if a = traderAddr then
      { acc with recipient_address := a, recipient_amount := out.value }
    else
      { acc with change_return_address := a, change_return_amount := out.value }

/-- The full output scan of main: fold `classifyStep` over the transaction's
outputs in order, starting from the default-initialized variables. -/
def classifyOutputs (fromScript : Script → Option String) (traderAddr : String)
    (outs : List TxOut) : OutputClassification :=
  outs.foldl (classifyStep fromScript traderAddr) initClassification

/-- The outputs that decode to an address, in order, paired with their values
(spec-side helper: the outputs that survive the `continue` in the scan). -/
def decodedOutputs (fromScript : Script → Option String) (outs : List TxOut) :
    List (String × ℚ) :=
  outs.filterMap (fun o => (fromScript o.script_pubkey).map (fun a => (a, o.value)))

/-- The last decoded output whose address equals the trader address
(spec-side: the claim says only the last match is retained). -/
def lastMatch (traderAddr : String) (l : List (String × ℚ)) : Option (String × ℚ) :=
  (l.filter (fun p => p.1 = traderAddr)).getLast?

/-- The last decoded output whose address differs from the trader address. -/
def lastNonMatch (traderAddr : String) (l : List (String × ℚ)) : Option (String × ℚ) :=
  (l.filter (fun p => ¬ p.1 = traderAddr)).getLast?

/-- Sum of all output values of the transaction (lines 352-356): every output
contributes, whether or not its script decodes to an address. -/
def totalOutputAmount (outs : List TxOut) : ℚ :=
  (outs.map (fun o => o.value)).sum

/-- The fee computation of main (line 357):
mining_fees = total_input_amount - total_output_amount. -/
def miningFees (totalInput : ℚ) (outs : List TxOut) : ℚ :=
  totalInput - totalOutputAmount outs

/-- Result of the sender-resolution block of main (lines 294-313). The four
cases mirror the four control paths: no first input (the if-let is skipped and
the defaults survive), a propagated RPC error from get_raw_transaction, a
panic from the unchecked index previous_transaction.output[vout], or success. -/
inductive SenderResolution where
  | noInput
  | rpcError
  | outOfBounds
  | resolved (sender_address : String) (total_input_amount : ℚ)
deriving DecidableEq

/-- Sender resolution (lines 294-313): inspect raw_transaction.input.first()
only; fetch its previous transaction (`fetchTx` embeds rpc.get_raw_transaction,
none = RPC error, which main propagates with ?); index into that transaction's
outputs at previous_output.vout (unchecked in the source: out of bounds
panics); record that output's value as total_input_amount and decode the
sender address from its script, an undecodable script yielding the empty
string via unwrap_or_default. -/
def resolveSender (fromScript : Script → Option String)
    (fetchTx : String → Option Transaction) (tx : Transaction) : SenderResolution :=
  match tx.input with
  | [] => SenderResolution.noInput
  | txin :: _ =>
    match fetchTx txin.previous_output.txid with
    | none => SenderResolution.rpcError
    | some prevTx =>
      match prevTx.output[txin.previous_output.vout]? with
      | none => SenderResolution.outOfBounds
      | some prevOut =>
        SenderResolution.resolved ((fromScript prevOut.script_pubkey).getD "")
          prevOut.value

/-- The data written to the report file, one field per component, in the
order the write! at lines 385-388 interpolates them. -/
structure ReportData where
  transaction_id : String
  sender_address : String
  total_input_amount : ℚ
  recipient_address : String
  recipient_amount : ℚ
  change_return_address : String
  change_return_amount : ℚ
  mining_fees : ℚ
  current_block_height : Nat
  latest_block_hash : String

/-- The exact string produced by the write! at lines 385-388. `fmtFloat`
embeds Rust's default f64 Display formatting and `fmtSci` embeds the
two-digit scientific {:.2e} formatting; both are opaque library behavior. -/
def reportOutput (fmtFloat fmtSci : ℚ → String) (d : ReportData) : String :=
  d.transaction_id ++ "\n" ++ d.sender_address ++ "\n" ++
  fmtFloat d.total_input_amount ++ "\n" ++ d.recipient_address ++ "\n" ++
  fmtFloat d.recipient_amount ++ "\n" ++ d.change_return_address ++ "\n" ++
  fmtFloat d.change_return_amount ++ "\n" ++ fmtSci d.mining_fees ++ "\n" ++
  toString d.current_block_height ++ "\n" ++ d.latest_block_hash ++ "\n"

/-- The ten report fields in the order the spec lists them (spec-side
definition for comparison against `reportOutput`). -/
def reportFields (fmtFloat fmtSci : ℚ → String) (d : ReportData) : List String :=
  [d.transaction_id, d.sender_address, fmtFloat d.total_input_amount,
   d.recipient_address, fmtFloat d.recipient_amount,
   d.change_return_address, fmtFloat d.change_return_amount,
   fmtSci d.mining_fees, toString d.current_block_height, d.latest_block_hash]

/-- Concatenation of a list of fields, each terminated by a newline
(spec-side: what "newline-terminated fields in this exact order" denotes). -/
def joinTerminated : List String → String
  | [] => ""
  | s :: rest => s ++ "\n" ++ joinTerminated rest

/-- The per-iteration RPC responses of the mining loop, as an oracle indexed
by the iteration count: generate embeds generate_to_address(1, miner_address)
(none = RPC failure; the returned block hashes are discarded by the source)
and balance embeds get_balance(None, None) (none = RPC failure). -/
structure MiningOracle where
  generate : Nat → Option Unit
  balance : Nat → Option ℚ

/-- The closure passed to find_map at lines 169-183: mine one block to the
miner address (.ok()? turns an error into None), query the spendable balance
(.ok()? again), then return some (count, balance) exactly when the balance is
strictly greater than Amount::ZERO. -/
def miningStep (o : MiningOracle) (count : Nat) : Option (Nat × ℚ) := do
  let _ ← o.generate count
  let b ← o.balance count
  if 0 < b then some (count, b) else none

/-- Fuel-bounded embedding of Iterator::find_map on the range (start..): try
f at start, start + 1, ... and return the first some result. The Rust
iterator is unbounded; fuel bounds the search depth of the embedding. -/
def findMapFrom {α : Type} (f : Nat → Option α) : Nat → Nat → Option α
  | _, 0 => none
  | start, fuel + 1 =>
    match f start with
    | some a => some a
    | none => findMapFrom f (start + 1) fuel

/-- The mining loop of lines 164-186:
(1..).find_map(closure).unwrap_or((0, Amount::ZERO)). -/
def miningLoop (o : MiningOracle) (fuel : Nat) : Nat × ℚ :=
  (findMapFrom (miningStep o) 1 fuel).getD (0, 0)

/-- Demonstration balance sequence: zero until iteration 3, then 5 BTC. -/
def demoB (k : Nat) : ℚ := if 3 ≤ k then 5 else 0

/-- Demonstration oracle with no RPC failures and balances demoB. -/
def demoOracle : MiningOracle where
  generate := fun _ => some ()
  balance := fun k => some (demoB k)

/-- Oracle whose block-generation RPC fails at iteration 1, with a positive
balance visible from iteration 2 on. -/
def failingOracle : MiningOracle where
  generate := fun k => if k = 1 then none else some ()
  balance := fun _ => some 7

/-- Modelled from the spec: the confirmed spendable balance reported by the
node after k blocks have been mined from a fresh height-0 chain to a single
address. The node is external Bitcoin Core, not part of src/: per the spec,
each coinbase matures only after 100 further blocks (50 BTC each on regtest),
so after k blocks only the coinbases of blocks 1..k-100 are spendable and the
balance is positive exactly when 101 ≤ k. -/
def freshNodeBalance (k : Nat) : ℚ :=
  if 101 ≤ k then 50 * ((k : ℚ) - 100) else 0

/-- Modelled from the spec: the failure-free RPC oracle of a fresh regtest
node, with balances freshNodeBalance. -/
def freshNodeOracle : MiningOracle where
  generate := fun _ => some ()
  balance := fun k => some (freshNodeBalance k)

/-- Fixture output: 50 BTC locked by the script "w". -/
def wOut : TxOut := { value := 50, script_pubkey := { code := "w" } }

/-- Fixture previous transaction holding wOut as its only output. -/
def wPrevTx : Transaction := { input := [], output := [wOut] }

/-- Fixture transaction spending output 0 of "prevtx" as its only input. -/
def wTx : Transaction :=
  { input := [{ previous_output := { txid := "prevtx", vout := 0 } }],
    output := [] }

/-- Fixture RPC fetch returning wPrevTx for every transaction id. -/
def wFetch : String → Option Transaction := fun _ => some wPrevTx

/-- Fixture decoder mapping every script to its code as the address. -/
def wDecode : Script → Option String := fun s => some s.code

/-- Fixture output list: 1 BTC locked by script "a" and 2 BTC locked by
script "b" (two decodable non-trader outputs). -/
def cOuts : List TxOut :=
  [{ value := 1, script_pubkey := { code := "a" } },
   { value := 2, script_pubkey := { code := "b" } }]

/-- C1: the report file contents are exactly the ten newline-terminated
fields, in the order transaction id, sender address, total input amount
(default float formatting), recipient address, recipient amount, change
address, change amount, fee in two-digit scientific notation, block height,
latest block hash. -/
theorem report_is_ten_terminated_fields (fmtFloat fmtSci : ℚ → String)
    (d : ReportData) :
    reportOutput fmtFloat fmtSci d
        = joinTerminated (reportFields fmtFloat fmtSci d) ∧
      (reportFields fmtFloat fmtSci d).length = 10 := by
  constructor
  · simp [reportOutput, reportFields, joinTerminated, String.append_assoc]
  · rfl

/-- C2: the computed fee equals the total input amount minus the sum of the
values of all outputs; partitioning the outputs by decodability of their
script under any decoder shows that undecodable outputs' values are included
in the subtraction just like decodable ones. -/
theorem fee_counts_all_outputs (fromScript : Script → Option String)
    (totalInput : ℚ) (outs : List TxOut) :
    miningFees totalInput outs
      = totalInput -
        (((outs.filter (fun o => (fromScript o.script_pubkey).isSome)).map
            (fun o => o.value)).sum
         + ((outs.filter (fun o => ¬ (fromScript o.script_pubkey).isSome)).map
            (fun o => o.value)).sum) := by
  have key : ∀ l : List TxOut,
      ((l.filter (fun o => (fromScript o.script_pubkey).isSome)).map
          (fun o => o.value)).sum
        + ((l.filter (fun o => ¬ (fromScript o.script_pubkey).isSome)).map
          (fun o => o.value)).sum
        = (l.map (fun o => o.value)).sum := by
    intro l
    induction l with
    | nil => simp
    | cons o rest ih =>
      cases hfs : fromScript o.script_pubkey <;>
        simp [List.filter_cons, hfs, ← ih] <;> ring
  rw [key]
  rfl

/-- find_map over an ascending range returns f's value at the first index
where f yields some, provided that index is within fuel of the start. -/
theorem findMapFrom_eq_first {α : Type} (f : Nat → Option α) (start fuel n : Nat)
    (a : α) (h1 : start ≤ n) (h2 : n < start + fuel) (h3 : f n = some a)
    (h4 : ∀ k, start ≤ k → k < n → f k = none) :
    findMapFrom f start fuel = some a := by
  induction fuel generalizing start with
  | zero => omega
  | succ m ih =>
    by_cases hs : start = n
    · subst hs
      simp [findMapFrom, h3]
    · have hlt : start < n := by omega
      have hnone : f start = none := h4 start le_rfl hlt
      simp only [findMapFrom, hnone]
      exact ih (start + 1) (by omega) (by omega)
        (fun k hk1 hk2 => h4 k (by omega) hk2)

/-- C5: with no RPC failures, every iteration mines exactly one block and then
queries the wallet balance, and the loop returns the first count (starting
from 1) whose balance is strictly positive, paired with that balance. -/
theorem mining_loop_first_positive (o : MiningOracle) (B : Nat → ℚ)
    (n fuel : Nat)
    (hgen : ∀ k, o.generate k = some ())
    (hbal : ∀ k, o.balance k = some (B k))
    (h1 : 1 ≤ n) (h2 : n < 1 + fuel) (hpos : 0 < B n)
    (hmin : ∀ k, 1 ≤ k → k < n → B k ≤ 0) :
    miningLoop o fuel = (n, B n) := by
  have hstep : miningStep o n = some (n, B n) := by
    simp [miningStep, hgen n, hbal n, hpos]
  have hnone : ∀ k, 1 ≤ k → k < n → miningStep o k = none := by
    intro k hk1 hk2
    have hle : ¬ 0 < B k := not_lt.mpr (hmin k hk1 hk2)
    simp [miningStep, hgen k, hbal k, hle]
  unfold miningLoop
  rw [findMapFrom_eq_first (miningStep o) 1 fuel n (n, B n) h1 (by omega)
    hstep hnone]
  rfl

/-- Witness for C5 at the demonstration oracle. -/
theorem mining_loop_first_positive_witness :
    0 < demoB 3 ∧ miningLoop demoOracle 10 = (3, demoB 3) :=
  ⟨by norm_num [demoB],
    mining_loop_first_positive demoOracle demoB 3 10 (fun _ => rfl)
      (fun _ => rfl) (by norm_num) (by norm_num) (by norm_num [demoB])
      (by
        intro k hk1 hk2
        have hk : ¬ 3 ≤ k := by omega
        simp [demoB, hk])⟩

/-- C6 counterexample: the block-generation RPC of iteration 1 fails, yet the
loop does not abort to the zero-count, zero-balance fallback; it continues and
returns iteration 2's positive result. -/
theorem rpc_failure_abort_cex :
    failingOracle.generate 1 = none ∧
      miningLoop failingOracle 10 = (2, 7) ∧
      ((2 : Nat), (7 : ℚ)) ≠ ((0 : Nat), (0 : ℚ)) := by
  refine ⟨rfl, ?_, by decide⟩
  rfl

/-- C6 (amended): an RPC failure during an iteration makes that iteration
yield no result and the search continues with the next count; the zero-count,
zero-balance fallback is produced only when the whole (fuel-bounded) search
yields nothing. -/
theorem rpc_failure_skips_iteration (o : MiningOracle) (n fuel : Nat)
    (h : o.generate n = none ∨ o.balance n = none) :
    findMapFrom (miningStep o) n (fuel + 1)
        = findMapFrom (miningStep o) (n + 1) fuel ∧
      (findMapFrom (miningStep o) 1 fuel = none →
        miningLoop o fuel = (0, 0)) := by
  constructor
  · have hstep : miningStep o n = none := by
      rcases h with h | h
      · simp [miningStep, h]
      · cases hg : o.generate n <;> simp [miningStep, hg, h]
    simp [findMapFrom, hstep]
  · intro hnone
    simp [miningLoop, hnone]

/-- Witness for the amended C6 at the failing oracle. -/
theorem rpc_failure_skips_iteration_witness :
    failingOracle.generate 1 = none ∧
      findMapFrom (miningStep failingOracle) 1 (3 + 1)
        = findMapFrom (miningStep failingOracle) 2 3 :=
  ⟨rfl, (rpc_failure_skips_iteration failingOracle 1 3 (Or.inl rfl)).1⟩

/-- C8: on the spec-modelled fresh regtest node the mining loop stops at
exactly iteration 101, returning a blocks-mined count of 101 and the then
positive spendable balance of 50 BTC. -/
theorem fresh_node_needs_101_blocks (fuel : Nat) (h : 101 ≤ fuel) :
    miningLoop freshNodeOracle fuel = (101, 50) := by
  have h50 : freshNodeBalance 101 = 50 := by norm_num [freshNodeBalance]
  have hstep : miningStep freshNodeOracle 101 = some (101, 50) := by
    have hp : (0 : ℚ) < freshNodeBalance 101 := by rw [h50]; norm_num
    simp [miningStep, freshNodeOracle, hp, h50]
  have hnone : ∀ k, 1 ≤ k → k < 101 → miningStep freshNodeOracle k = none := by
    intro k hk1 hk2
    have hk : ¬ 101 ≤ k := by omega
    have hb : freshNodeBalance k = 0 := by simp [freshNodeBalance, hk]
    simp [miningStep, freshNodeOracle, hb]
  unfold miningLoop
  rw [findMapFrom_eq_first (miningStep freshNodeOracle) 1 fuel 101 (101, 50)
    (by norm_num) (by omega) hstep hnone]
  rfl

/-- Witness for C8 at the minimal sufficient fuel. -/
theorem fresh_node_needs_101_blocks_witness :
    101 ≤ 101 ∧ miningLoop freshNodeOracle 101 = (101, 50) :=
  ⟨le_refl 101, fresh_node_needs_101_blocks 101 (le_refl 101)⟩

/-- The last element of a cons with a default equals the last element of the
tail with the head as the new default. -/
theorem getLast?_getD_cons {α : Type} (x d : α) (l : List α) :
    ((x :: l).getLast?).getD d = (l.getLast?).getD x := by
  cases l with
  | nil => rfl
  | cons y ys =>
    have h : (y :: ys).getLast?.isSome := by
      simp [List.getLast?_isSome]
    obtain ⟨z, hz⟩ := Option.isSome_iff_exists.mp h
    simp [List.getLast?_cons_cons, hz]

/-- Characterization of the output-scan fold from an arbitrary starting
state: the recipient fields end at the last trader-matching decoded output
(defaulting to the start state's) and the change fields at the last
non-matching decoded output. -/
theorem classify_foldl_spec (fromScript : Script → Option String) (t : String)
    (outs : List TxOut) (acc : OutputClassification) :
    ((outs.foldl (classifyStep fromScript t) acc).recipient_address,
        (outs.foldl (classifyStep fromScript t) acc).recipient_amount)
      = (lastMatch t (decodedOutputs fromScript outs)).getD
          (acc.recipient_address, acc.recipient_amount) ∧
    ((outs.foldl (classifyStep fromScript t) acc).change_return_address,
        (outs.foldl (classifyStep fromScript t) acc).change_return_amount)
      = (lastNonMatch t (decodedOutputs fromScript outs)).getD
          (acc.change_return_address, acc.change_return_amount) := by
  induction outs generalizing acc with
  | nil => simp [lastMatch, lastNonMatch, decodedOutputs]
  | cons o rest ih =>
    cases hfs : fromScript o.script_pubkey with
    | none =>
      have hd : decodedOutputs fromScript (o :: rest)
          = decodedOutputs fromScript rest := by
        simp [decodedOutputs, hfs]
      simp only [List.foldl_cons, classifyStep, hfs, hd]
      exact ih acc
    | some a =>
      have hd : decodedOutputs fromScript (o :: rest)
          = (a, o.value) :: decodedOutputs fromScript rest := by
        simp [decodedOutputs, hfs]
      simp only [List.foldl_cons, classifyStep, hfs, hd]
      by_cases ha : a = t
      · simp only [if_pos ha]
        refine ⟨?_, ?_⟩
        · rw [(ih _).1]
          simp [lastMatch, List.filter_cons, ha, getLast?_getD_cons]
        · rw [(ih _).2]
          simp [lastNonMatch, List.filter_cons, ha]
      · simp only [if_neg ha]
        refine ⟨?_, ?_⟩
        · rw [(ih _).1]
          simp [lastMatch, List.filter_cons, ha]
        · rw [(ih _).2]
          simp [lastNonMatch, List.filter_cons, ha, getLast?_getD_cons]

/-- The output-scan characterization at the program's initial state. -/
theorem classify_outputs_spec (fromScript : Script → Option String)
    (t : String) (outs : List TxOut) :
    ((classifyOutputs fromScript t outs).recipient_address,
        (classifyOutputs fromScript t outs).recipient_amount)
      = (lastMatch t (decodedOutputs fromScript outs)).getD ("", 0) ∧
    ((classifyOutputs fromScript t outs).change_return_address,
        (classifyOutputs fromScript t outs).change_return_amount)
      = (lastNonMatch t (decodedOutputs fromScript outs)).getD ("", 0) :=
  classify_foldl_spec fromScript t outs initClassification

/-- C3: the output scan iterates all outputs in order, skips any output whose
script does not decode to an address, classifies a decoded output as
recipient exactly when its address string equals the trader address and as
change otherwise, and within each category only the last output encountered
is retained (earlier matches are overwritten), the defaults being the empty
address and amount 0. -/
theorem classify_outputs_last_match_wins (fromScript : Script → Option String)
    (t : String) (outs : List TxOut) :
    ((classifyOutputs fromScript t outs).recipient_address,
        (classifyOutputs fromScript t outs).recipient_amount)
      = (lastMatch t (decodedOutputs fromScript outs)).getD ("", 0) ∧
    ((classifyOutputs fromScript t outs).change_return_address,
        (classifyOutputs fromScript t outs).change_return_amount)
      = (lastNonMatch t (decodedOutputs fromScript outs)).getD ("", 0) :=
  classify_outputs_spec fromScript t outs

/-- C10: when no output of the transaction decodes to the trader address the
recipient fields keep their initial defaults: the recipient address stays the
empty string and the recipient amount stays 0. -/
theorem no_match_keeps_recipient_defaults (fromScript : Script → Option String)
    (t : String) (outs : List TxOut)
    (h : ∀ o ∈ outs, ∀ a, fromScript o.script_pubkey = some a → a ≠ t) :
    (classifyOutputs fromScript t outs).recipient_address = "" ∧
      (classifyOutputs fromScript t outs).recipient_amount = 0 := by
  have hfilter : (decodedOutputs fromScript outs).filter (fun p => p.1 = t)
      = [] := by
    rw [List.filter_eq_nil_iff]
    intro p hp
    obtain ⟨o, ho, hfo⟩ := List.mem_filterMap.mp hp
    cases hso : fromScript o.script_pubkey with
    | none => rw [hso] at hfo; cases hfo
    | some a =>
      rw [hso] at hfo
      have : (a, o.value) = p := by simpa using hfo
      have hne := h o ho a hso
      simp [← this, hne]
  have hchar := (classify_outputs_spec fromScript t outs).1
  rw [lastMatch, hfilter] at hchar
  simp only [List.getLast?_nil, Option.getD_none, Prod.mk.injEq] at hchar
  exact hchar

/-- Witness for C10 at the fixture outputs, none of which decodes to the
trader address. -/
theorem no_match_keeps_recipient_defaults_witness :
    (classifyOutputs wDecode "t" cOuts).recipient_address = "" ∧
      (classifyOutputs wDecode "t" cOuts).recipient_amount = 0 :=
  no_match_keeps_recipient_defaults wDecode "t" cOuts (by
    intro o ho a ha
    simp only [cOuts, List.mem_cons, List.not_mem_nil, or_false] at ho
    rcases ho with rfl | rfl <;> simp [wDecode] at ha <;> subst ha <;> decide)

/-- For a list with at most one element, the second component of its last
element (defaulting to 0) equals the sum of the second components. -/
theorem getD_last_eq_sum (l : List (String × ℚ)) (h : l.length ≤ 1) :
    ((l.getLast?).getD ("", 0)).2 = (l.map (fun p => p.2)).sum := by
  match l with
  | [] => simp
  | [p] => simp
  | p :: q :: r =>
    exfalso
    simp [List.length_cons] at h

/-- The value sum of the decoded outputs splits along the trader-address
match. -/
theorem sum_filter_split (t : String) (l : List (String × ℚ)) :
    ((l.filter (fun p => p.1 = t)).map (fun p => p.2)).sum
        + ((l.filter (fun p => ¬ p.1 = t)).map (fun p => p.2)).sum
      = (l.map (fun p => p.2)).sum := by
  induction l with
  | nil => simp
  | cons p rest ih =>
    by_cases hp : p.1 = t <;> simp [List.filter_cons, hp, ← ih] <;> ring

/-- When every output's script decodes, the decoded outputs carry exactly the
values of all outputs. -/
theorem decoded_sum (fromScript : Script → Option String) (outs : List TxOut)
    (h : ∀ o ∈ outs, (fromScript o.script_pubkey).isSome) :
    ((decodedOutputs fromScript outs).map (fun p => p.2)).sum
      = totalOutputAmount outs := by
  induction outs with
  | nil => simp [decodedOutputs, totalOutputAmount]
  | cons o rest ih =>
    obtain ⟨a, ha⟩ :=
      Option.isSome_iff_exists.mp (h o (List.mem_cons_self o rest))
    have ih2 := ih (fun o' ho' => h o' (List.mem_cons_of_mem o ho'))
    have hd : decodedOutputs fromScript (o :: rest)
        = (a, o.value) :: decodedOutputs fromScript rest := by
      simp [decodedOutputs, ha]
    rw [hd]
    simp only [List.map_cons, List.sum_cons, totalOutputAmount] at ih2 ⊢
    rw [ih2]

/-- C7 (amended): when every output's script decodes to an address and at
most one decoded output matches the trader address and at most one does not,
the retained recipient amount plus the retained change amount plus the
computed fee equals the total input amount (exactly, in the idealized exact
arithmetic). -/
theorem amounts_plus_fee_eq_input (fromScript : Script → Option String)
    (t : String) (outs : List TxOut) (totalInput : ℚ)
    (hdec : ∀ o ∈ outs, (fromScript o.script_pubkey).isSome)
    (hrec : ((decodedOutputs fromScript outs).filter
        (fun p => p.1 = t)).length ≤ 1)
    (hchg : ((decodedOutputs fromScript outs).filter
        (fun p => ¬ p.1 = t)).length ≤ 1) :
    (classifyOutputs fromScript t outs).recipient_amount
        + (classifyOutputs fromScript t outs).change_return_amount
        + miningFees totalInput outs
      = totalInput := by
  have h1 := (classify_outputs_spec fromScript t outs).1
  have h2 := (classify_outputs_spec fromScript t outs).2
  have hr : (classifyOutputs fromScript t outs).recipient_amount
      = (((decodedOutputs fromScript outs).filter (fun p => p.1 = t)).map
          (fun p => p.2)).sum := by
    have e : (classifyOutputs fromScript t outs).recipient_amount
        = ((lastMatch t (decodedOutputs fromScript outs)).getD ("", 0)).2 := by
      rw [← h1]
    rw [e]
    unfold lastMatch
    exact getD_last_eq_sum _ hrec
  have hc : (classifyOutputs fromScript t outs).change_return_amount
      = (((decodedOutputs fromScript outs).filter (fun p => ¬ p.1 = t)).map
          (fun p => p.2)).sum := by
    have e : (classifyOutputs fromScript t outs).change_return_amount
        = ((lastNonMatch t (decodedOutputs fromScript outs)).getD ("", 0)).2 := by
      rw [← h2]
    rw [e]
    unfold lastNonMatch
    exact getD_last_eq_sum _ hchg
  rw [hr, hc]
  have hsplit := sum_filter_split t (decodedOutputs fromScript outs)
  have hdsum := decoded_sum fromScript outs hdec
  unfold miningFees
  rw [← hdsum, ← hsplit]
  ring

/-- Witness for the amended C7: a single recipient output and a single change
output, both decodable. -/
theorem amounts_plus_fee_eq_input_witness :
    (classifyOutputs wDecode "a" cOuts).recipient_amount
        + (classifyOutputs wDecode "a" cOuts).change_return_amount
        + miningFees 10 cOuts
      = 10 :=
  amounts_plus_fee_eq_input wDecode "a" cOuts 10
    (by intro o ho; simp [wDecode]) (by decide) (by decide)

/-- C7 counterexample: with two decodable non-trader outputs only the last is
retained as change, so recipient amount + change amount + fee falls short of
the total input amount by the dropped first output's value (1 BTC here, far
beyond any floating-point tolerance). -/
theorem amounts_plus_fee_eq_input_cex :
    ¬ ((classifyOutputs wDecode "t" cOuts).recipient_amount
        + (classifyOutputs wDecode "t" cOuts).change_return_amount
        + miningFees 10 cOuts
      = 10) := by
  have ha : ¬ ("a" : String) = "t" := by decide
  have hb : ¬ ("b" : String) = "t" := by decide
  norm_num [ha, hb, classifyOutputs, cOuts, wDecode, initClassification,
    classifyStep, miningFees, totalOutputAmount]

/-- C4: sender resolution inspects only the first input: it fetches that
input's previous transaction, indexes that transaction's outputs at the
recorded vout, records the indexed output's value as the total input amount,
decodes the sender address from that output's script with a decoding failure
yielding the empty string rather than an error, and its result is unchanged
by whatever inputs follow the first. -/
theorem sender_first_input_only (fromScript : Script → Option String)
    (fetchTx : String → Option Transaction) (tx : Transaction) (i : TxIn)
    (rest : List TxIn) (prevTx : Transaction) (out : TxOut)
    (h1 : tx.input = i :: rest)
    (h2 : fetchTx i.previous_output.txid = some prevTx)
    (h3 : prevTx.output[i.previous_output.vout]? = some out) :
    resolveSender fromScript fetchTx tx
        = SenderResolution.resolved ((fromScript out.script_pubkey).getD "")
            out.value ∧
      ∀ rest' : List TxIn,
        resolveSender fromScript fetchTx
            { input := i :: rest', output := tx.output }
          = resolveSender fromScript fetchTx tx := by
  constructor
  · simp [resolveSender, h1, h2, h3]
  · intro rest'
    simp [resolveSender, h1, h2, h3]

/-- Witness for C4 at the fixture transaction: the resolved result, and
invariance under appending a second input. -/
theorem sender_first_input_only_witness :
    wTx.input = { previous_output := { txid := "prevtx", vout := 0 } } :: [] ∧
      resolveSender wDecode wFetch wTx
        = SenderResolution.resolved ((wDecode wOut.script_pubkey).getD "")
            wOut.value ∧
      resolveSender wDecode wFetch
          { input :=
              [{ previous_output := { txid := "prevtx", vout := 0 } },
               { previous_output := { txid := "other", vout := 5 } }],
            output := wTx.output }
        = resolveSender wDecode wFetch wTx :=
  ⟨rfl,
    (sender_first_input_only wDecode wFetch wTx
      { previous_output := { txid := "prevtx", vout := 0 } } [] wPrevTx wOut
      rfl rfl rfl).1,
    (sender_first_input_only wDecode wFetch wTx
      { previous_output := { txid := "prevtx", vout := 0 } } [] wPrevTx wOut
      rfl rfl rfl).2 [{ previous_output := { txid := "other", vout := 5 } }]⟩

/-- C9: the lookup into the fetched previous transaction's outputs is
unchecked: when the first input's vout is strictly less than the number of
outputs the lookup succeeds and resolution returns that output's data, and
the out-of-bounds panic branch is reached exactly when vout is not within
bounds. -/
theorem sender_index_bounds (fromScript : Script → Option String)
    (fetchTx : String → Option Transaction) (tx : Transaction) (i : TxIn)
    (rest : List TxIn) (prevTx : Transaction)
    (h1 : tx.input = i :: rest)
    (h2 : fetchTx i.previous_output.txid = some prevTx) :
    (i.previous_output.vout < prevTx.output.length →
        ∃ out, prevTx.output[i.previous_output.vout]? = some out ∧
          resolveSender fromScript fetchTx tx
            = SenderResolution.resolved
                ((fromScript out.script_pubkey).getD "") out.value) ∧
      (resolveSender fromScript fetchTx tx = SenderResolution.outOfBounds
        ↔ prevTx.output.length ≤ i.previous_output.vout) := by
  constructor
  · intro hlt
    have hsome := List.getElem?_eq_getElem hlt
    exact ⟨prevTx.output[i.previous_output.vout], hsome,
      by simp [resolveSender, h1, h2, hsome]⟩
  · constructor
    · intro hres
      by_contra hnot
      have hlt : i.previous_output.vout < prevTx.output.length := by omega
      have hsome := List.getElem?_eq_getElem hlt
      simp [resolveSender, h1, h2, hsome] at hres
    · intro hle
      have hnone : prevTx.output[i.previous_output.vout]? = none := by
        rw [List.getElem?_eq_none_iff]
        exact hle
      simp [resolveSender, h1, h2, hnone]

/-- Witness for C9 at the fixture transaction, whose vout 0 is in bounds: the
lookup succeeds and the panic branch is not taken. -/
theorem sender_index_bounds_witness :
    0 < wPrevTx.output.length ∧
      resolveSender wDecode wFetch wTx
        = SenderResolution.resolved ((wDecode wOut.script_pubkey).getD "")
            wOut.value ∧
      ¬ (resolveSender wDecode wFetch wTx = SenderResolution.outOfBounds) := by
  have h := sender_index_bounds wDecode wFetch wTx
    { previous_output := { txid := "prevtx", vout := 0 } } [] wPrevTx rfl rfl
  have hlen : 0 < wPrevTx.output.length := by decide
  obtain ⟨out, hout, hres⟩ := h.1 hlen
  have hw : out = wOut := by
    have h0 := hout
    simp [wPrevTx] at h0
    exact h0.symm
  refine ⟨hlen, ?_, ?_⟩
  · rw [hw] at hres
    exact hres
  · intro hoob
    have hle : wPrevTx.output.length ≤ 0 := h.2.mp hoob
    omega
